import Mathlib

/-!
# Verification of the Apex_SIH graphical-password core

A shallow embedding of the graphical-password authentication logic of
`accounts/views.py` and `accounts/models.py`: the salted SHA-256 digest of the
comma-joined image sequence (`hash_image_sequence`), the registration and
login flows with their validation order, and the persisted credential store.
Machine words are `Nat` with explicit reduction modulo `2^32`; SHA-256 follows
FIPS 180-4, which is the contract of Python's `hashlib.sha256`; UTF-8 encoding
follows the Unicode standard, which is the contract of Python's `str.encode()`.
-/

/-- `2^32`, the word modulus of SHA-256. -/
def M32 : Nat := 4294967296

/-- Right rotation of a 32-bit word held in a `Nat`. -/
def rotr32 (n x : Nat) : Nat := ((x >>> n) ||| (x <<< (32 - n))) % M32

/-- `Ch(x,y,z)`; the complement of `x` is `x XOR 0xffffffff` on 32-bit words. -/
def ch32 (x y z : Nat) : Nat := (x &&& y) ^^^ ((x ^^^ 4294967295) &&& z)

/-- `Maj(x,y,z)`. -/
def maj32 (x y z : Nat) : Nat := (x &&& y) ^^^ (x &&& z) ^^^ (y &&& z)

/-- `Σ₀`. -/
def bsig0 (x : Nat) : Nat := rotr32 2 x ^^^ rotr32 13 x ^^^ rotr32 22 x

/-- `Σ₁`. -/
def bsig1 (x : Nat) : Nat := rotr32 6 x ^^^ rotr32 11 x ^^^ rotr32 25 x

/-- `σ₀`. -/
def ssig0 (x : Nat) : Nat := rotr32 7 x ^^^ rotr32 18 x ^^^ (x >>> 3)

/-- `σ₁`. -/
def ssig1 (x : Nat) : Nat := rotr32 17 x ^^^ rotr32 19 x ^^^ (x >>> 10)

/-- The 64 SHA-256 round constants. -/
def K256 : List Nat :=
  [1116352408, 1899447441, 3049323471, 3921009573, 961987163,
   1508970993, 2453635748, 2870763221, 3624381080, 310598401,
   607225278, 1426881987, 1925078388, 2162078206, 2614888103,
   3248222580, 3835390401, 4022224774, 264347078, 604807628,
   770255983, 1249150122, 1555081692, 1996064986, 2554220882,
   2821834349, 2952996808, 3210313671, 3336571891, 3584528711,
   113926993, 338241895, 666307205, 773529912, 1294757372,
   1396182291, 1695183700, 1986661051, 2177026350, 2456956037,
   2730485921, 2820302411, 3259730800, 3345764771, 3516065817,
   3600352804, 4094571909, 275423344, 430227734, 506948616,
   659060556, 883997877, 958139571, 1322822218, 1537002063,
   1747873779, 1955562222, 2024104815, 2227730452, 2361852424,
   2428436474, 2756734187, 3204031479, 3329325298]

/-- An eight-word SHA-256 state `(a,b,c,d,e,f,g,h)`. -/
abbrev St8 : Type := Nat × Nat × Nat × Nat × Nat × Nat × Nat × Nat

/-- The SHA-256 initial hash value. -/
def initH : St8 :=
  (1779033703, 3144134277, 1013904242, 2773480762,
   1359893119, 2600822924, 528734635, 1541459225)

/-- Group a byte list into big-endian 32-bit words, four bytes per word. -/
def bytesToWords : List Nat → List Nat
  | b0 :: b1 :: b2 :: b3 :: rest =>
      (b0 * 16777216 + b1 * 65536 + b2 * 256 + b3) :: bytesToWords rest
  | _ => []

/-- Extend a 16-word message schedule by `n` further words (FIPS 180-4 §6.2.2). -/
def schedExtend : Nat → List Nat → List Nat
  | 0, ws => ws
  | n + 1, ws =>
      let t := ws.length
      schedExtend n (ws ++
        [(ssig1 (ws.getD (t - 2) 0) + ws.getD (t - 7) 0 +
          ssig0 (ws.getD (t - 15) 0) + ws.getD (t - 16) 0) % M32])

/-- One SHA-256 round: fold the working state through constant `kv` and
schedule word `wv`. -/
def round256 (s : St8) (kw : Nat × Nat) : St8 :=
  match s, kw with
  | (a, b, c, d, e, f, g, h), (kv, wv) =>
      let t1 := (h + bsig1 e + ch32 e f g + kv + wv) % M32
      let t2 := (bsig0 a + maj32 a b c) % M32
      ((t1 + t2) % M32, a, b, c, (d + t1) % M32, e, f, g)

/-- Compress one 64-byte block into the running hash state. -/
def compress (h0 : St8) (block : List Nat) : St8 :=
  let ws := schedExtend 48 (bytesToWords block)
  match h0, (K256.zip ws).foldl round256 h0 with
  | (a0, b0, c0, d0, e0, f0, g0, hh0), (a, b, c, d, e, f, g, h) =>
      ((a0 + a) % M32, (b0 + b) % M32, (c0 + c) % M32, (d0 + d) % M32,
       (e0 + e) % M32, (f0 + f) % M32, (g0 + g) % M32, (hh0 + h) % M32)

/-- The 8-byte big-endian encoding of a 64-bit length field. -/
def lenBytes (x : Nat) : List Nat :=
  [x >>> 56 % 256, x >>> 48 % 256, x >>> 40 % 256, x >>> 32 % 256,
   x >>> 24 % 256, x >>> 16 % 256, x >>> 8 % 256, x % 256]

/-- SHA-256 padding (FIPS 180-4 §5.1.1): a `0x80` byte, zeros to 56 mod 64,
then the bit length, big-endian in 8 bytes. -/
def padMsg (msg : List Nat) : List Nat :=
  msg ++ [128] ++ List.replicate ((120 - (msg.length + 1) % 64) % 64) 0 ++
    lenBytes (8 * msg.length)

/-- Split a padded message into its 64-byte blocks, using the block count as
structural fuel. -/
def chunksGo : Nat → List Nat → List (List Nat)
  | 0, _ => []
  | n + 1, l => l.take 64 :: chunksGo n (l.drop 64)

/-- The 64-byte blocks of a padded message. -/
def chunks (l : List Nat) : List (List Nat) := chunksGo (l.length / 64) l

/-- The SHA-256 state after absorbing a whole (unpadded) byte message. -/
def sha256Words (msg : List Nat) : St8 := (chunks (padMsg msg)).foldl compress initH

/-- The four big-endian bytes of a 32-bit word. -/
def wordBytes (x : Nat) : List Nat :=
  [x / 16777216 % 256, x / 65536 % 256, x / 256 % 256, x % 256]

/-- The 32 digest bytes of a final SHA-256 state. -/
def digestBytes (s : St8) : List Nat :=
  match s with
  | (a, b, c, d, e, f, g, h) =>
      wordBytes a ++ wordBytes b ++ wordBytes c ++ wordBytes d ++
      wordBytes e ++ wordBytes f ++ wordBytes g ++ wordBytes h

/-- The sixteen lowercase hexadecimal digits. -/
def hexDigits : List Char :=
  ['0', '1', '2', '3', '4', '5', '6', '7', '8', '9'] ++
    ['a', 'b', 'c', 'd', 'e', 'f']

/-- The lowercase hex digit of `n mod 16`. -/
def hexChar (n : Nat) : Char := hexDigits.getD (n % 16) '0'

/-- Lowercase hex encoding of a byte list, two digits per byte. -/
def bytesToHex : List Nat → List Char
  | [] => []
  | b :: bs => hexChar (b / 16) :: hexChar b :: bytesToHex bs

/-- `hashlib.sha256(bytes).hexdigest()`: the lowercase-hex SHA-256 digest of a
byte list. -/
def sha256hex (msg : List Nat) : String :=
  String.mk (bytesToHex (digestBytes (sha256Words msg)))

/-- The UTF-8 encoding of one Unicode scalar value. -/
def utf8Char (c : Char) : List Nat :=
  let n := c.toNat
  if n < 128 then [n]
  else if n < 2048 then [192 + n / 64, 128 + n % 64]
  else if n < 65536 then [224 + n / 4096, 128 + n / 64 % 64, 128 + n % 64]
  else [240 + n / 262144, 128 + n / 4096 % 64, 128 + n / 64 % 64, 128 + n % 64]

/-- `str.encode()`: the UTF-8 bytes of a string. -/
def utf8Bytes (s : String) : List Nat :=
  s.data.foldr (fun c acc => utf8Char c ++ acc) []

/-- `accounts/views.py` lines 19-24: `hash_image_sequence(sequence, salt)`
appends the salt to the sequence string and returns the lowercase-hex SHA-256
digest of the UTF-8 bytes of the concatenation. -/
def hash_image_sequence (sequence salt : String) : String :=
  let combined := sequence ++ salt
  sha256hex (utf8Bytes combined)

/-- `secrets.token_hex(16)`: the lowercase-hex encoding of the 16 random bytes
the oracle supplies; randomness enters the model as the byte-list argument. -/
def tokenHex (randomBytes : List Nat) : String :=
  String.mk (bytesToHex randomBytes)

/-- A row of the framework user table as registration writes it:
`User.objects.create_user(username, email, password)`. -/
structure UserRec where
  username : String
  email : String
  password : String
deriving DecidableEq

/-- A `GraphicalPassword` row (`accounts/models.py` lines 6-15): the owning
user, the salted sequence hash, and the salt. -/
structure CredRec where
  username : String
  image_sequence_hash : String
  salt : String
deriving DecidableEq

/-- The persistent store: user rows and graphical-credential rows. -/
structure DB where
  users : List UserRec
  creds : List CredRec
deriving DecidableEq

/-- The store plus the session state the auth layer keeps. -/
structure World where
  db : DB
  session : Option String
deriving DecidableEq

/-- The outcomes of the registration flow, one per distinct failure branch of
`register` plus the success branch. -/
inductive RegOutcome where
  | invalidEmail
  | missingGraphicalPassword
  | invalidSequenceLength
  | duplicateUsername
  | duplicateEmail
  | success
deriving DecidableEq

/-- The outcomes of the login flow, one per distinct failure branch of `login`
plus the success branch. -/
inductive LoginOutcome where
  | missingGraphicalPassword
  | invalidCredentials
  | credentialNotConfigured
  | invalidGraphicalPassword
  | success
deriving DecidableEq

/-- Python's `str.split(',')` on the character list of a string: splitting on
every comma, `[] ↦ [[]]`, so the piece count is always the comma count plus
one. -/
def splitComma : List Char → List (List Char)
  | [] => [[]]
  | c :: cs =>
      if c = ',' then [] :: splitComma cs
      else
        match splitComma cs with
        | [] => [[c]]
        | t :: ts => (c :: t) :: ts

/-- `len(graphical_password.split(','))`: the token count of the submitted
sequence string. -/
def tokenCount (gp : String) : Nat := (splitComma gp.data).length

/-- `accounts/views.py` lines 31-81: the POST branch of `register`. Email
syntax checking is the framework's `validate_email`, passed in as the
predicate `validEmail`; the salt randomness is the `saltBytes` oracle. The
checks run in source order: email syntax, empty graphical password, token
count in `[4,6]`, duplicate username, duplicate email; only then are the user
row and the credential row created. -/
def register (validEmail : String → Bool) (w : World)
    (username email password gp : String) (saltBytes : List Nat) :
    RegOutcome × World :=
  if validEmail email = false then (.invalidEmail, w)
  else if gp = "" then (.missingGraphicalPassword, w)
  else if tokenCount gp < 4 ∨ 6 < tokenCount gp then (.invalidSequenceLength, w)
  else if w.db.users.any (fun u => u.username == username) then (.duplicateUsername, w)
  else if w.db.users.any (fun u => u.email == email) then (.duplicateEmail, w)
  else
    let salt := tokenHex saltBytes
    let hashed := hash_image_sequence gp salt
    (.success,
      ⟨⟨w.db.users ++ [⟨username, email, password⟩],
        w.db.creds ++ [⟨username, hashed, salt⟩]⟩, w.session⟩)

/-- `django.contrib.auth.authenticate`: the stored user whose username and
password both match, if any. -/
def authenticate (db : DB) (username password : String) : Option UserRec :=
  db.users.find? (fun u => u.username == username && u.password == password)

/-- `GraphicalPassword.objects.get(user=user)`: the credential row of a user,
if one exists (`none` is the `DoesNotExist` branch). -/
def findCred (db : DB) (username : String) : Option CredRec :=
  db.creds.find? (fun c => c.username == username)

/-- The login verifier: recompute the salted digest of the submitted sequence
and compare it to the stored hash — a pure function of exactly these three
strings. -/
def verifyGraphical (gp salt storedHash : String) : Bool :=
  hash_image_sequence gp salt == storedHash

/-- `accounts/views.py` lines 103-136: the POST branch of `login`. In source
order: empty graphical password, primary authentication, credential lookup,
salted-hash comparison; only when all pass does `auth.login` establish the
session. The store is never written. -/
def login (w : World) (username password gp : String) : LoginOutcome × World :=
  if gp = "" then (.missingGraphicalPassword, w)
  else
    match authenticate w.db username password with
    | none => (.invalidCredentials, w)
    | some user =>
        match findCred w.db user.username with
        | none => (.credentialNotConfigured, w)
        | some cred =>
            if verifyGraphical gp cred.salt cred.image_sequence_hash then
              (.success, ⟨w.db, some user.username⟩)
            else (.invalidGraphicalPassword, w)

/-- `accounts/views.py` lines 158-162: `logout` ends the session and touches
nothing else. -/
def logout (w : World) : World := ⟨w.db, none⟩

/-- The comma-join producing the canonical sequence string the client submits
(Python `','.join(tokens)`). -/
def joinComma : List String → String
  | [] => ""
  | [t] => t
  | t :: ts => t ++ "," ++ joinComma ts

/-- The image catalog rendered by the register view
(`accounts/views.py` lines 84-97). -/
def registerImages : List String :=
  ["anonymity.png", "bitcoin.png", "blackcoin.png", "block_chain.png",
   "centralized.png", "conversion.png", "currency_cap.png",
   "decentralized.png", "decryption.png", "digital_key.png",
   "disclosed_identity.png", "distributed.png", "dogecoin.png",
   "emercoin.png", "encryption.png", "ethereum.png", "feathercoin.png",
   "free.png", "ledger.png", "litecoin.png", "lost_key.png",
   "mastercoin.png", "miner.png", "miner2.png", "mining.png",
   "mining2.png", "mining_center.png", "mining_pool.png",
   "mining_pool2.png", "monero.png", "myriad.png", "namecoin.png",
   "no_double_spending.png", "nxt.png", "p2p.png", "peercoin.png",
   "ponzi_scheme.png", "primecoin.png", "pseudonimity.png",
   "pyramid_scheme.png", "receive.png", "ripple.png", "send.png",
   "siacoin.png", "stellar_lumen.png", "transaction.png", "tumbler.png",
   "wallet.png", "zcash.png", "zcoin.png"]

/-- The image catalog rendered by the login view
(`accounts/views.py` lines 139-152). -/
def loginImages : List String :=
  ["anonymity.png", "bitcoin.png", "blackcoin.png", "block_chain.png",
   "centralized.png", "conversion.png", "currency_cap.png",
   "decentralized.png", "decryption.png", "digital_key.png",
   "disclosed_identity.png", "distributed.png", "dogecoin.png",
   "emercoin.png", "encryption.png", "ethereum.png", "feathercoin.png",
   "free.png", "ledger.png", "litecoin.png", "lost_key.png",
   "mastercoin.png", "miner.png", "miner2.png", "mining.png",
   "mining2.png", "mining_center.png", "mining_pool.png",
   "mining_pool2.png", "monero.png", "myriad.png", "namecoin.png",
   "no_double_spending.png", "nxt.png", "p2p.png", "peercoin.png",
   "ponzi_scheme.png", "primecoin.png", "pseudonimity.png",
   "pyramid_scheme.png", "receive.png", "ripple.png", "send.png",
   "siacoin.png", "stellar_lumen.png", "transaction.png", "tumbler.png",
   "wallet.png", "zcash.png", "zcoin.png"]

/-- The outcome of registration against a store whose persistence step may
fail: either a taxonomy outcome or the store's unavailability condition. -/
inductive RegPersistOutcome where
  | ok (o : RegOutcome)
  | storeUnavailable
deriving DecidableEq

/-- Modelled from the spec: the transactional behavior of the persistence
layer (the project settings and store semantics are not part of the provided
source). Spec §5: the store "provides per-record atomicity (a single
account+credential creation either fully succeeds or fully fails)"; §4.2: "if
any persistence step fails, neither the account nor the credential must
remain". `persistOk` is the oracle saying whether that single persistence
step succeeds; on failure the world is left untouched. -/
def registerPersist (validEmail : String → Bool) (w : World)
    (username email password gp : String) (saltBytes : List Nat)
    (persistOk : Bool) : RegPersistOutcome × World :=
  match register validEmail w username email password gp saltBytes with
  | (.success, w2) => if persistOk then (.ok .success, w2) else (.storeUnavailable, w)
  | (o, _) => (.ok o, w)


/-- The numeric value of a lowercase hex digit (`0` on any other character). -/
def hexVal : Char → Nat
  | '0' => 0 | '1' => 1 | '2' => 2 | '3' => 3 | '4' => 4 | '5' => 5
  | '6' => 6 | '7' => 7 | '8' => 8 | '9' => 9 | 'a' => 10 | 'b' => 11
  | 'c' => 12 | 'd' => 13 | 'e' => 14 | 'f' => 15 | _ => 0

/-- Read a digest string as a function from position to hex-digit value; on
64-character hex strings this coding is faithful. -/
def digestCode (s : String) : Fin 64 → Fin 16 :=
  fun i => ⟨hexVal (s.data.getD i.val '0') % 16, Nat.mod_lt _ (by norm_num)⟩

/-- Eight distinct letters used to build distinct two-character tokens. -/
def letters8 : List Char := ['a', 'b', 'c', 'd', 'e', 'f', 'g', 'h']

/-- The `i`-th of 59 pairwise distinct two-character comma-free tokens. -/
def tok (i : Fin 59) : String :=
  String.mk [letters8.getD (i.val / 8) 'a', letters8.getD (i.val % 8) 'a']

/-- The ordering of the 59 tokens induced by a permutation: all these lists
are permutations of one another, pairwise distinct. -/
def seqOf (σ : Equiv.Perm (Fin 59)) : List String := List.ofFn (fun i => tok (σ i))

/-! ## Structural lemmas about the digest encodings -/

theorem length_mk_string (l : List Char) : (String.mk l).length = l.length := rfl

theorem string_data_inj {s t : String} (h : s.data = t.data) : s = t := by
  cases s; cases t; exact congrArg String.mk h

theorem hexChar_mem (n : Nat) : hexChar n ∈ hexDigits := by
  have h : n % 16 < hexDigits.length := by
    have : n % 16 < 16 := Nat.mod_lt _ (by norm_num)
    simpa [hexDigits] using this
  rw [hexChar, List.getD_eq_getElem _ _ h]
  exact List.getElem_mem h

theorem bytesToHex_length (l : List Nat) : (bytesToHex l).length = 2 * l.length := by
  induction l with
  | nil => rfl
  | cons b bs ih => simp [bytesToHex, ih]; omega

theorem mem_bytesToHex {c : Char} {l : List Nat} (h : c ∈ bytesToHex l) :
    c ∈ hexDigits := by
  induction l with
  | nil => simp [bytesToHex] at h
  | cons b bs ih =>
      simp only [bytesToHex, List.mem_cons] at h
      rcases h with rfl | h
      · exact hexChar_mem _
      rcases h with rfl | h
      · exact hexChar_mem _
      · exact ih h

theorem digestBytes_length (s : St8) : (digestBytes s).length = 32 := by
  obtain ⟨a, b, c, d, e, f, g, h⟩ := s
  rfl

theorem sha256hex_length (msg : List Nat) : (sha256hex msg).length = 64 := by
  rw [sha256hex, length_mk_string, bytesToHex_length, digestBytes_length]

theorem sha256hex_mem_hex (msg : List Nat) {c : Char}
    (h : c ∈ (sha256hex msg).data) : c ∈ hexDigits := by
  rw [sha256hex] at h
  exact mem_bytesToHex h

/-! ## Lemmas about comma splitting and joining -/

theorem splitComma_ne_nil (l : List Char) : splitComma l ≠ [] := by
  induction l with
  | nil => simp [splitComma]
  | cons c cs ih =>
      by_cases h : c = ','
      · simp [splitComma, h]
      · simp only [splitComma, if_neg h]
        cases hs : splitComma cs with
        | nil => simp
        | cons t ts => simp

theorem length_splitComma (l : List Char) :
    (splitComma l).length = l.count ',' + 1 := by
  induction l with
  | nil => rfl
  | cons c cs ih =>
      by_cases h : c = ','
      · subst h
        simp [splitComma, ih, List.count_cons]
      · simp only [splitComma, if_neg h]
        cases hs : splitComma cs with
        | nil => exact absurd hs (splitComma_ne_nil cs)
        | cons t ts =>
            rw [hs] at ih
            simp at ih
            simp [List.count_cons, h, ih]

theorem find?_append_of_forall_false {α : Type} (l1 l2 : List α) (p : α → Bool)
    (h : ∀ x ∈ l1, p x = false) : (l1 ++ l2).find? p = l2.find? p := by
  induction l1 with
  | nil => rfl
  | cons x xs ih =>
      have hx : p x = false := h x (by simp)
      simp only [List.cons_append, List.find?, hx]
      exact ih (fun y hy => h y (by simp [hy]))

/-! ## Claim theorems -/

/-- C10: the image catalog presented by the registration view and the one
presented by the login view are the same 50-element list, element for element
and in the same order, even though the code declares the list twice. -/
theorem catalogs_identical :
    registerImages = loginImages ∧ registerImages.length = 50 :=
  ⟨rfl, rfl⟩

/-- C1: `hash_image_sequence seq salt` is exactly the lowercase-hex SHA-256
digest of the UTF-8 bytes of `seq ++ salt` (salt appended at the end); it is
deterministic (equal inputs give equal digests); and its output is a 64-char
string of lowercase hex digits. It is a pure function with no I/O. -/
theorem hash_image_sequence_spec (seq salt s2 t2 : String)
    (hs : seq = s2) (ht : salt = t2) :
    hash_image_sequence seq salt = sha256hex (utf8Bytes (seq ++ salt)) ∧
    hash_image_sequence seq salt = hash_image_sequence s2 t2 ∧
    (hash_image_sequence seq salt).length = 64 ∧
    ∀ c ∈ (hash_image_sequence seq salt).data, c ∈ hexDigits := by
  subst hs; subst ht
  exact ⟨rfl, rfl, sha256hex_length _, fun c hc => sha256hex_mem_hex _ hc⟩

/-- Witness for C1 at the concrete sequence and salt of the test suite. -/
theorem hash_image_sequence_spec_witness :
    (hash_image_sequence "anonymity.png,bitcoin.png" "ab").length = 64 :=
  (hash_image_sequence_spec "anonymity.png,bitcoin.png" "ab"
    "anonymity.png,bitcoin.png" "ab" rfl rfl).2.2.1

/-- C4: login runs its checks in source order, each failure a distinct outcome
returning the world unchanged (no session): empty sequence, failed primary
credentials, missing credential record, digest mismatch; the session is
established exactly when all four checks pass. -/
theorem login_check_order (w : World) (u p gp : String) :
    (gp = "" → login w u p gp = (.missingGraphicalPassword, w)) ∧
    (gp ≠ "" → authenticate w.db u p = none →
      login w u p gp = (.invalidCredentials, w)) ∧
    (∀ user, gp ≠ "" → authenticate w.db u p = some user →
      findCred w.db user.username = none →
      login w u p gp = (.credentialNotConfigured, w)) ∧
    (∀ user cred, gp ≠ "" → authenticate w.db u p = some user →
      findCred w.db user.username = some cred →
      hash_image_sequence gp cred.salt ≠ cred.image_sequence_hash →
      login w u p gp = (.invalidGraphicalPassword, w)) ∧
    ((login w u p gp).1 = .success ↔
      gp ≠ "" ∧ ∃ user cred, authenticate w.db u p = some user ∧
        findCred w.db user.username = some cred ∧
        hash_image_sequence gp cred.salt = cred.image_sequence_hash) ∧
    ((login w u p gp).1 ≠ .success → login w u p gp = ((login w u p gp).1, w)) ∧
    (∀ user, authenticate w.db u p = some user → (login w u p gp).1 = .success →
      (login w u p gp).2 = ⟨w.db, some user.username⟩) := by
  refine ⟨fun h => by simp [login, h],
    fun h hauth => by simp [login, h, hauth],
    fun user h hauth hcred => by simp [login, h, hauth, hcred],
    fun user cred h hauth hcred hv => by
      simp [login, h, hauth, hcred, verifyGraphical, hv],
    ?_, ?_, ?_⟩
  · constructor
    · intro hs
      by_cases hgp : gp = ""
      · simp [login, hgp] at hs
      · rcases hauth : authenticate w.db u p with _ | user
        · simp [login, hgp, hauth] at hs
        · rcases hcred : findCred w.db user.username with _ | cred
          · simp [login, hgp, hauth, hcred] at hs
          · by_cases hv : hash_image_sequence gp cred.salt = cred.image_sequence_hash
            · exact ⟨hgp, user, cred, rfl, hcred, hv⟩
            · simp [login, hgp, hauth, hcred, verifyGraphical, hv] at hs
    · rintro ⟨hgp, user, cred, hauth, hcred, hv⟩
      simp [login, hgp, hauth, hcred, verifyGraphical, hv]
  · intro hs
    by_cases hgp : gp = ""
    · simp [login, hgp]
    · rcases hauth : authenticate w.db u p with _ | user
      · simp [login, hgp, hauth]
      · rcases hcred : findCred w.db user.username with _ | cred
        · simp [login, hgp, hauth, hcred]
        · by_cases hv : hash_image_sequence gp cred.salt = cred.image_sequence_hash
          · exact absurd (by simp [login, hgp, hauth, hcred, verifyGraphical, hv]) hs
          · simp [login, hgp, hauth, hcred, verifyGraphical, hv]
  · intro user hauth hs
    by_cases hgp : gp = ""
    · simp [login, hgp] at hs
    · rcases hcred : findCred w.db user.username with _ | cred
      · simp [login, hgp, hauth, hcred] at hs
      · by_cases hv : hash_image_sequence gp cred.salt = cred.image_sequence_hash
        · simp [login, hgp, hauth, hcred, verifyGraphical, hv]
        · simp [login, hgp, hauth, hcred, verifyGraphical, hv] at hs

/-- Witness for C4: on an empty store, a login with a nonempty sequence and
unknown user fails with `invalidCredentials` and changes nothing. -/
theorem login_check_order_witness :
    login ⟨⟨[], []⟩, none⟩ "alice" "pw" "a.png,b.png,c.png,d.png" =
      (.invalidCredentials, ⟨⟨[], []⟩, none⟩) :=
  (login_check_order ⟨⟨[], []⟩, none⟩ "alice" "pw" "a.png,b.png,c.png,d.png").2.1
    (by decide) rfl

/-- C5: registration validates in source order — email syntax, empty sequence,
token count in the closed range `[4,6]`, duplicate username, duplicate
email — each failure a distinct outcome leaving the world unchanged; the user
and credential rows are created exactly when all five checks pass. Counts `2`
and `7` fall in the rejected region and counts `4`, `5`, `6` pass the length
check, as instances of the range conditions. -/
theorem register_check_order (ve : String → Bool) (w : World)
    (un em pw gp : String) (sb : List Nat) :
    (ve em = false → register ve w un em pw gp sb = (.invalidEmail, w)) ∧
    (ve em = true → gp = "" →
      register ve w un em pw gp sb = (.missingGraphicalPassword, w)) ∧
    (ve em = true → gp ≠ "" → (tokenCount gp < 4 ∨ 6 < tokenCount gp) →
      register ve w un em pw gp sb = (.invalidSequenceLength, w)) ∧
    (ve em = true → gp ≠ "" → 4 ≤ tokenCount gp → tokenCount gp ≤ 6 →
      w.db.users.any (fun x => x.username == un) = true →
      register ve w un em pw gp sb = (.duplicateUsername, w)) ∧
    (ve em = true → gp ≠ "" → 4 ≤ tokenCount gp → tokenCount gp ≤ 6 →
      w.db.users.any (fun x => x.username == un) = false →
      w.db.users.any (fun x => x.email == em) = true →
      register ve w un em pw gp sb = (.duplicateEmail, w)) ∧
    ((register ve w un em pw gp sb).1 = .success ↔
      ve em = true ∧ gp ≠ "" ∧ 4 ≤ tokenCount gp ∧ tokenCount gp ≤ 6 ∧
      w.db.users.any (fun x => x.username == un) = false ∧
      w.db.users.any (fun x => x.email == em) = false) ∧
    ((register ve w un em pw gp sb).1 ≠ .success →
      register ve w un em pw gp sb = ((register ve w un em pw gp sb).1, w)) ∧
    ((register ve w un em pw gp sb).1 = .success →
      (register ve w un em pw gp sb).2 =
        ⟨⟨w.db.users ++ [⟨un, em, pw⟩],
          w.db.creds ++ [⟨un, hash_image_sequence gp (tokenHex sb), tokenHex sb⟩]⟩,
         w.session⟩) := by
  refine ⟨fun h1 => by simp [register, h1],
    fun h1 h2 => by simp [register, h1, h2],
    fun h1 h2 h3 => by simp [register, h1, h2, h3],
    fun h1 h2 h3 h4 h5 => by
      have hlen : ¬ (tokenCount gp < 4 ∨ 6 < tokenCount gp) := by omega
      simp [register, h1, h2, hlen, h5],
    fun h1 h2 h3 h4 h5 h6 => by
      have hlen : ¬ (tokenCount gp < 4 ∨ 6 < tokenCount gp) := by omega
      simp [register, h1, h2, hlen, h5, h6],
    ?_, ?_, ?_⟩
  · constructor
    · intro hs
      by_cases h1 : ve em = true
      · by_cases h2 : gp = ""
        · simp [register, h1, h2] at hs
        · by_cases h3 : tokenCount gp < 4 ∨ 6 < tokenCount gp
          · simp [register, h1, h2, h3] at hs
          · by_cases h4 : w.db.users.any (fun x => x.username == un) = true
            · simp [register, h1, h2, h3, h4] at hs
            · by_cases h5 : w.db.users.any (fun x => x.email == em) = true
              · simp [register, h1, h2, h3, h4, h5] at hs
              · exact ⟨h1, h2, by omega, by omega,
                  by simpa using h4, by simpa using h5⟩
      · have hf : ve em = false := by simpa using h1
        simp [register, hf] at hs
    · rintro ⟨h1, h2, h3, h4, h5, h6⟩
      have hlen : ¬ (tokenCount gp < 4 ∨ 6 < tokenCount gp) := by omega
      simp [register, h1, h2, hlen, h5, h6]
  · intro hs
    by_cases h1 : ve em = true
    · by_cases h2 : gp = ""
      · simp [register, h1, h2]
      · by_cases h3 : tokenCount gp < 4 ∨ 6 < tokenCount gp
        · simp [register, h1, h2, h3]
        · by_cases h4 : w.db.users.any (fun x => x.username == un) = true
          · simp [register, h1, h2, h3, h4]
          · by_cases h5 : w.db.users.any (fun x => x.email == em) = true
            · simp [register, h1, h2, h3, h4, h5]
            · exact absurd (by simp [register, h1, h2, h3, h4, h5]) hs
    · have hf : ve em = false := by simpa using h1
      simp [register, hf]
  · intro hs
    by_cases h1 : ve em = true
    · by_cases h2 : gp = ""
      · simp [register, h1, h2] at hs
      · by_cases h3 : tokenCount gp < 4 ∨ 6 < tokenCount gp
        · simp [register, h1, h2, h3] at hs
        · by_cases h4 : w.db.users.any (fun x => x.username == un) = true
          · simp [register, h1, h2, h3, h4] at hs
          · by_cases h5 : w.db.users.any (fun x => x.email == em) = true
            · simp [register, h1, h2, h3, h4, h5] at hs
            · simp [register, h1, h2, h3, h4, h5]
    · have hf : ve em = false := by simpa using h1
      simp [register, hf] at hs

/-- Witness for C5: with a passing email check, a two-token sequence is
rejected as `invalidSequenceLength` on an empty store. -/
theorem register_check_order_witness :
    register (fun _ => true) ⟨⟨[], []⟩, none⟩ "u" "e@x.com" "pw"
      "anonymity.png,bitcoin.png" [] = (.invalidSequenceLength, ⟨⟨[], []⟩, none⟩) :=
  (register_check_order (fun _ => true) ⟨⟨[], []⟩, none⟩ "u" "e@x.com" "pw"
    "anonymity.png,bitcoin.png" []).2.2.1 rfl (by decide) (by decide)

/-- C7: stored credential rows (salt and sequence hash) are untouched by every
login attempt, success or failure, and by logout; a credential is written only
by a successful registration, which appends exactly one row; and the success
of the graphical check is exactly the pure verifier applied to the submitted
sequence, the stored salt, and the stored hash. -/
theorem credentials_immutable (w : World) (u p gp : String) :
    ((login w u p gp).2.db = w.db) ∧
    ((logout w).db = w.db) ∧
    (∀ (ve : String → Bool) (un em pw g : String) (sb : List Nat),
      (register ve w un em pw g sb).2.db.creds = w.db.creds ∨
      ((register ve w un em pw g sb).1 = .success ∧
       (register ve w un em pw g sb).2.db.creds =
         w.db.creds ++ [⟨un, hash_image_sequence g (tokenHex sb), tokenHex sb⟩])) ∧
    (∀ user cred, authenticate w.db u p = some user →
      findCred w.db user.username = some cred →
      ((login w u p gp).1 = .success ↔
        gp ≠ "" ∧ verifyGraphical gp cred.salt cred.image_sequence_hash = true)) := by
  refine ⟨?_, rfl, ?_, ?_⟩
  · by_cases hgp : gp = ""
    · simp [login, hgp]
    · rcases hauth : authenticate w.db u p with _ | user
      · simp [login, hgp, hauth]
      · rcases hcred : findCred w.db user.username with _ | cred
        · simp [login, hgp, hauth, hcred]
        · by_cases hv : verifyGraphical gp cred.salt cred.image_sequence_hash = true
          · simp [login, hgp, hauth, hcred, hv]
          · simp [login, hgp, hauth, hcred,
              Bool.eq_false_iff.mpr hv]
  · intro ve un em pw g sb
    by_cases h1 : ve em = false
    · left; simp [register, h1]
    · by_cases h2 : g = ""
      · left; simp [register, h1, h2]
      · by_cases h3 : tokenCount g < 4 ∨ 6 < tokenCount g
        · left; simp [register, h1, h2, h3]
        · by_cases h4 : w.db.users.any (fun x => x.username == un) = true
          · left; simp [register, h1, h2, h3, h4]
          · by_cases h5 : w.db.users.any (fun x => x.email == em) = true
            · left; simp [register, h1, h2, h3, h4, h5]
            · right
              constructor <;> simp [register, h1, h2, h3, h4, h5]
  · intro user cred hauth hcred
    by_cases hgp : gp = ""
    · simp [login, hgp]
    · by_cases hv : verifyGraphical gp cred.salt cred.image_sequence_hash = true
      · simp [login, hgp, hauth, hcred, hv]
      · simp [login, hgp, hauth, hcred, Bool.eq_false_iff.mpr hv, hv]

/-- Witness for C7: the purity clause instantiated on a one-user store: the
login of that user with an empty sequence is not a success. -/
theorem credentials_immutable_witness :
    (login ⟨⟨[⟨"u", "e", "p"⟩], [⟨"u", "h", "s"⟩]⟩, none⟩ "u" "p" "").1 ≠
      LoginOutcome.success := by
  have h := (credentials_immutable ⟨⟨[⟨"u", "e", "p"⟩], [⟨"u", "h", "s"⟩]⟩, none⟩
    "u" "p" "").2.2.2 ⟨"u", "e", "p"⟩ ⟨"u", "h", "s"⟩ (by decide) (by decide)
  intro hs
  exact (h.mp hs).1 rfl

/-- C6: under the store atomicity the spec postulates (modelled by
`registerPersist`), registration is all-or-nothing: either the store is
exactly as before, or the outcome is success and exactly one user row and one
credential row were appended together; in particular a failed persistence step
leaves neither row behind. -/
theorem register_all_or_nothing (ve : String → Bool) (w : World)
    (un em pw gp : String) (sb : List Nat) (persistOk : Bool) :
    (((registerPersist ve w un em pw gp sb persistOk).2.db.users = w.db.users ∧
      (registerPersist ve w un em pw gp sb persistOk).2.db.creds = w.db.creds) ∨
     ((registerPersist ve w un em pw gp sb persistOk).1 = .ok .success ∧
      (registerPersist ve w un em pw gp sb persistOk).2.db.users =
        w.db.users ++ [⟨un, em, pw⟩] ∧
      (registerPersist ve w un em pw gp sb persistOk).2.db.creds =
        w.db.creds ++ [⟨un, hash_image_sequence gp (tokenHex sb), tokenHex sb⟩])) ∧
    (persistOk = false → (registerPersist ve w un em pw gp sb persistOk).2 = w) := by
  rcases hreg : register ve w un em pw gp sb with ⟨o, w2⟩
  rcases o with _ | _ | _ | _ | _ | _
  case success =>
    by_cases hok : persistOk = true
    · have hbig : w2.db.users = w.db.users ++ [⟨un, em, pw⟩] ∧
          w2.db.creds = w.db.creds ++
            [⟨un, hash_image_sequence gp (tokenHex sb), tokenHex sb⟩] := by
        by_cases h1 : ve em = false
        · simp [register, h1] at hreg
        · by_cases h2 : gp = ""
          · simp [register, h1, h2] at hreg
          · by_cases h3 : tokenCount gp < 4 ∨ 6 < tokenCount gp
            · simp [register, h1, h2, h3] at hreg
            · by_cases h4 : w.db.users.any (fun x => x.username == un) = true
              · simp [register, h1, h2, h3, h4] at hreg
              · by_cases h5 : w.db.users.any (fun x => x.email == em) = true
                · simp [register, h1, h2, h3, h4, h5] at hreg
                · simp [register, h1, h2, h3, h4, h5] at hreg
                  rw [← hreg]
                  exact ⟨rfl, rfl⟩
      refine ⟨Or.inr ⟨?_, ?_, ?_⟩, ?_⟩
      · simp [registerPersist, hreg, hok]
      · simp [registerPersist, hreg, hok, hbig.1]
      · simp [registerPersist, hreg, hok, hbig.2]
      · intro hf; rw [hf] at hok; exact absurd hok (by decide)
    · have hf : persistOk = false := by simpa using hok
      subst hf
      constructor
      · left
        constructor <;> simp [registerPersist, hreg]
      · intro
        simp [registerPersist, hreg]
  all_goals
    constructor
    · left
      constructor <;> simp [registerPersist, hreg]
    · intro
      simp [registerPersist, hreg]

/-- Witness for C6: a failing persistence step on a would-be-successful
registration leaves the world exactly as it was. -/
theorem register_all_or_nothing_witness :
    (registerPersist (fun _ => true) ⟨⟨[], []⟩, none⟩ "u" "e@x.com" "p"
      "a.png,b.png,c.png,d.png" [] false).2 = ⟨⟨[], []⟩, none⟩ :=
  (register_all_or_nothing (fun _ => true) ⟨⟨[], []⟩, none⟩ "u" "e@x.com" "p"
    "a.png,b.png,c.png,d.png" [] false).2 rfl

/-- A successful registration is exactly the success branch: one user row and
one credential row appended, session untouched. -/
theorem register_success_eq (ve : String → Bool) (w : World)
    (un em pw gp : String) (sb : List Nat)
    (hs : (register ve w un em pw gp sb).1 = .success) :
    register ve w un em pw gp sb = (.success,
      ⟨⟨w.db.users ++ [⟨un, em, pw⟩],
        w.db.creds ++ [⟨un, hash_image_sequence gp (tokenHex sb), tokenHex sb⟩]⟩,
       w.session⟩) := by
  by_cases h1 : ve em = false
  · simp [register, h1] at hs
  · by_cases h2 : gp = ""
    · simp [register, h1, h2] at hs
    · by_cases h3 : tokenCount gp < 4 ∨ 6 < tokenCount gp
      · simp [register, h1, h2, h3] at hs
      · by_cases h4 : w.db.users.any (fun x => x.username == un) = true
        · simp [register, h1, h2, h3, h4] at hs
        · by_cases h5 : w.db.users.any (fun x => x.email == em) = true
          · simp [register, h1, h2, h3, h4, h5] at hs
          · simp [register, h1, h2, h3, h4, h5]

/-- C3: round trip — registering a fresh user with a valid graphical sequence
succeeds, and logging in afterwards with exactly the same username, password
and sequence string ends in the success branch with the session established
for that user. -/
theorem register_login_roundtrip (ve : String → Bool) (w : World)
    (u e p s : String) (sb : List Nat)
    (h1 : ve e = true) (h2 : s ≠ "")
    (h3 : 4 ≤ tokenCount s) (h4 : tokenCount s ≤ 6)
    (h5 : w.db.users.any (fun x => x.username == u) = false)
    (h6 : w.db.users.any (fun x => x.email == e) = false)
    (h7 : w.db.creds.any (fun c => c.username == u) = false) :
    (register ve w u e p s sb).1 = .success ∧
    login (register ve w u e p s sb).2 u p s =
      (.success, ⟨(register ve w u e p s sb).2.db, some u⟩) := by
  have hlen : ¬ (tokenCount s < 4 ∨ 6 < tokenCount s) := by omega
  have h1f : ¬ ve e = false := by simp [h1]
  have hreg : register ve w u e p s sb = (.success,
      ⟨⟨w.db.users ++ [⟨u, e, p⟩],
        w.db.creds ++ [⟨u, hash_image_sequence s (tokenHex sb), tokenHex sb⟩]⟩,
       w.session⟩) := by
    simp [register, h1f, h2, hlen, h5, h6]
  refine ⟨by rw [hreg], ?_⟩
  rw [hreg]
  rw [List.any_eq_false] at h5 h7
  have hauth : authenticate
      ⟨w.db.users ++ [⟨u, e, p⟩],
       w.db.creds ++ [⟨u, hash_image_sequence s (tokenHex sb), tokenHex sb⟩]⟩
      u p = some ⟨u, e, p⟩ := by
    unfold authenticate
    rw [find?_append_of_forall_false]
    · simp [List.find?]
    · intro x hx
      have hxu := h5 x hx
      simp only [Bool.not_eq_true] at hxu
      simp [hxu]
  have hcred : findCred
      ⟨w.db.users ++ [⟨u, e, p⟩],
       w.db.creds ++ [⟨u, hash_image_sequence s (tokenHex sb), tokenHex sb⟩]⟩
      u = some ⟨u, hash_image_sequence s (tokenHex sb), tokenHex sb⟩ := by
    unfold findCred
    rw [find?_append_of_forall_false]
    · simp [List.find?]
    · intro c hc
      have hcu := h7 c hc
      simp only [Bool.not_eq_true] at hcu
      simp [hcu]
  simp [login, h2, hauth, hcred, verifyGraphical]

/-- Witness for C3: registering `alice` with the four-token sequence of the
spec's login scenario on an empty store, then logging in with the same data,
establishes `alice`'s session. -/
theorem register_login_roundtrip_witness :
    (register (fun _ => true) ⟨⟨[], []⟩, none⟩ "alice" "a@x.com" "pw"
      "x.png,y.png,z.png,w.png" [0]).1 = .success ∧
    login (register (fun _ => true) ⟨⟨[], []⟩, none⟩ "alice" "a@x.com" "pw"
        "x.png,y.png,z.png,w.png" [0]).2 "alice" "pw" "x.png,y.png,z.png,w.png" =
      (.success,
       ⟨(register (fun _ => true) ⟨⟨[], []⟩, none⟩ "alice" "a@x.com" "pw"
          "x.png,y.png,z.png,w.png" [0]).2.db, some "alice"⟩) :=
  register_login_roundtrip (fun _ => true) ⟨⟨[], []⟩, none⟩ "alice" "a@x.com"
    "pw" "x.png,y.png,z.png,w.png" [0] rfl (by decide) (by decide) (by decide)
    rfl rfl rfl

/-- C9: the registration length check counts the comma-separated fields of the
raw submitted string and never inspects their contents: every nonempty string
with between 3 and 5 commas passes it, and with the other checks passing the
registration succeeds whatever the fields contain. -/
theorem length_check_content_blind (ve : String → Bool) (w : World)
    (un em pw gp : String) (sb : List Nat)
    (h1 : ve em = true) (h2 : gp ≠ "")
    (h3 : 3 ≤ gp.data.count ',') (h4 : gp.data.count ',' ≤ 5)
    (h5 : w.db.users.any (fun x => x.username == un) = false)
    (h6 : w.db.users.any (fun x => x.email == em) = false) :
    (register ve w un em pw gp sb).1 = .success := by
  have hcount : tokenCount gp = gp.data.count ',' + 1 := length_splitComma gp.data
  have hlen : ¬ (tokenCount gp < 4 ∨ 6 < tokenCount gp) := by omega
  have h1f : ¬ ve em = false := by simp [h1]
  simp [register, h1f, h2, hlen, h5, h6]

/-- Witness for C9: the string `",,,"` — four empty fields, none a catalog
image — registers successfully on an empty store. -/
theorem length_check_content_blind_witness :
    (register (fun _ => true) ⟨⟨[], []⟩, none⟩ "u" "e@x.com" "p" ",,," []).1 =
      .success :=
  length_check_content_blind (fun _ => true) ⟨⟨[], []⟩, none⟩ "u" "e@x.com"
    "p" ",,," [] rfl (by decide) (by decide) (by decide) rfl rfl

/-- C8: every credential row a successful registration creates stores the hex
encoding of the 16 salt bytes — 32 lowercase hex characters — and the salted
SHA-256 digest of the submitted sequence — 64 lowercase hex characters. -/
theorem credential_format (ve : String → Bool) (w : World)
    (un em pw gp : String) (sb : List Nat)
    (hsb : sb.length = 16)
    (hs : (register ve w un em pw gp sb).1 = .success) :
    (register ve w un em pw gp sb).2.db.creds =
      w.db.creds ++ [⟨un, hash_image_sequence gp (tokenHex sb), tokenHex sb⟩] ∧
    (tokenHex sb).length = 32 ∧
    (∀ c ∈ (tokenHex sb).data, c ∈ hexDigits) ∧
    (hash_image_sequence gp (tokenHex sb)).length = 64 ∧
    (∀ c ∈ (hash_image_sequence gp (tokenHex sb)).data, c ∈ hexDigits) := by
  refine ⟨?_, ?_, ?_, sha256hex_length _, fun c hc => sha256hex_mem_hex _ hc⟩
  · rw [register_success_eq ve w un em pw gp sb hs]
  · rw [tokenHex, length_mk_string, bytesToHex_length, hsb]
  · intro c hc
    exact mem_bytesToHex hc

/-- Witness for C8: a concrete successful registration with 16 zero salt
bytes; the stored salt is 32 hex characters. -/
theorem credential_format_witness :
    (tokenHex [0, 0, 0, 0, 0, 0, 0, 0, 0, 0, 0, 0, 0, 0, 0, 0]).length = 32 :=
  (credential_format (fun _ => true) ⟨⟨[], []⟩, none⟩ "u" "e@x.com" "p"
    "a.png,b.png,c.png,d.png" [0, 0, 0, 0, 0, 0, 0, 0, 0, 0, 0, 0, 0, 0, 0, 0]
    rfl (by decide)).2.1

/-! ## Order sensitivity: what a fixed-length digest can and cannot satisfy -/

theorem hexVal_round : ∀ c ∈ hexDigits, hexDigits.getD (hexVal c) '0' = c ∧ hexVal c < 16 := by
  intro c hc
  simp only [hexDigits, List.mem_append, List.mem_cons, List.not_mem_nil,
    or_false] at hc
  rcases hc with (rfl | rfl | rfl | rfl | rfl | rfl | rfl | rfl | rfl | rfl) |
    (rfl | rfl | rfl | rfl | rfl | rfl) <;> exact ⟨rfl, by decide⟩

theorem digestCode_inj {s1 s2 : String}
    (hl1 : s1.data.length = 64) (hx1 : ∀ c ∈ s1.data, c ∈ hexDigits)
    (hl2 : s2.data.length = 64) (hx2 : ∀ c ∈ s2.data, c ∈ hexDigits)
    (h : digestCode s1 = digestCode s2) : s1 = s2 := by
  apply string_data_inj
  apply List.ext_get (by rw [hl1, hl2])
  intro n h1 h2
  have hn : n < 64 := by rw [hl1] at h1; exact h1
  have hv := congrArg Fin.val (congrFun h ⟨n, hn⟩)
  simp only [digestCode] at hv
  rw [List.getD_eq_getElem _ _ h1, List.getD_eq_getElem _ _ h2] at hv
  have m1 : s1.data[n] ∈ hexDigits := hx1 _ (List.getElem_mem h1)
  have m2 : s2.data[n] ∈ hexDigits := hx2 _ (List.getElem_mem h2)
  have r1 := hexVal_round _ m1
  have r2 := hexVal_round _ m2
  rw [Nat.mod_eq_of_lt r1.2, Nat.mod_eq_of_lt r2.2] at hv
  calc s1.data.get ⟨n, h1⟩ = hexDigits.getD (hexVal s1.data[n]) '0' := r1.1.symm
    _ = hexDigits.getD (hexVal s2.data[n]) '0' := by rw [hv]
    _ = s2.data.get ⟨n, h2⟩ := r2.1

theorem letters8_getD_inj : ∀ a b : Fin 8,
    letters8.getD a.val 'a' = letters8.getD b.val 'a' → a = b := by decide

theorem tok_inj : Function.Injective tok := by
  intro i j h
  have hd := congrArg String.data h
  simp only [tok, List.cons.injEq, and_true] at hd
  have hi : i.val < 59 := i.isLt
  have hj : j.val < 59 := j.isLt
  have d1 := letters8_getD_inj ⟨i.val / 8, by omega⟩ ⟨j.val / 8, by omega⟩ hd.1
  have d2 := letters8_getD_inj ⟨i.val % 8, by omega⟩ ⟨j.val % 8, by omega⟩ hd.2
  have e1 : i.val / 8 = j.val / 8 := congrArg Fin.val d1
  have e2 : i.val % 8 = j.val % 8 := congrArg Fin.val d2
  exact Fin.ext (by omega)

theorem seqOf_inj : Function.Injective seqOf := by
  intro σ τ h
  rw [seqOf, seqOf, List.ofFn_inj] at h
  exact Equiv.ext fun i => tok_inj (congrFun h i)

theorem seqOf_tok_len : ∀ (σ : Equiv.Perm (Fin 59)), ∀ t ∈ seqOf σ, t.data.length = 2 := by
  intro σ t ht
  rw [seqOf, List.mem_ofFn] at ht
  obtain ⟨i, rfl⟩ := ht
  rfl

theorem seqOf_perm (σ τ : Equiv.Perm (Fin 59)) : (seqOf σ).Perm (seqOf τ) := by
  have base : ∀ ρ : Equiv.Perm (Fin 59), (seqOf ρ).Perm (List.ofFn tok) := by
    intro ρ
    rw [seqOf, List.ofFn_eq_map, List.ofFn_eq_map]
    have hperm : ((List.finRange 59).map ρ).Perm (List.finRange 59) := by
      refine (List.perm_ext_iff_of_nodup ?_ ?_).mpr ?_
      · exact (List.nodup_finRange 59).map ρ.injective
      · exact List.nodup_finRange 59
      · intro a
        simp only [List.mem_map, List.mem_finRange, true_and, iff_true]
        exact ⟨ρ.symm a, ρ.apply_symm_apply a⟩
    have hmap := hperm.map tok
    rw [List.map_map] at hmap
    exact hmap
  exact (base σ).trans (base τ).symm

theorem joinComma_data_cons (t : String) (t2 : String) (ts : List String) :
    (joinComma (t :: t2 :: ts)).data = t.data ++ ',' :: (joinComma (t2 :: ts)).data := by
  show (t ++ "," ++ joinComma (t2 :: ts)).data = _
  rw [String.data_append, String.data_append]
  simp

theorem joinComma_len2 : ∀ l : List String, l ≠ [] →
    (∀ t ∈ l, t.data.length = 2) →
    (joinComma l).data.length = 3 * l.length - 1 := by
  intro l
  induction l with
  | nil => intro h; exact absurd rfl h
  | cons t ts ih =>
      intro _ hl
      cases ts with
      | nil =>
          have h2 := hl t (by simp)
          have he : joinComma [t] = t := rfl
          rw [he, h2]
          simp
      | cons t2 ts2 =>
          rw [joinComma_data_cons]
          have hrec := ih (by simp) (fun x hx => hl x (by simp [hx]))
          have h2 := hl t (by simp)
          simp only [List.length_append, List.length_cons, hrec, h2]
          omega

theorem joinComma_inj2 : ∀ l1 l2 : List String,
    (∀ t ∈ l1, t.data.length = 2) → (∀ t ∈ l2, t.data.length = 2) →
    joinComma l1 = joinComma l2 → l1 = l2 := by
  intro l1
  induction l1 with
  | nil =>
      intro l2 _ hl2 hj
      cases l2 with
      | nil => rfl
      | cons t ts =>
          have hle := congrArg (fun s => s.data.length) hj
          simp only at hle
          rw [joinComma_len2 (t :: ts) (List.cons_ne_nil t ts) hl2] at hle
          have : (joinComma []).data.length = 0 := rfl
          rw [this] at hle
          simp only [List.length_cons] at hle
          omega
  | cons t ts ih =>
      intro l2 hl1 hl2 hj
      cases l2 with
      | nil =>
          have hle := congrArg (fun s => s.data.length) hj
          simp only at hle
          rw [joinComma_len2 (t :: ts) (List.cons_ne_nil t ts) hl1] at hle
          have : (joinComma []).data.length = 0 := rfl
          rw [this] at hle
          simp only [List.length_cons] at hle
          omega
      | cons t2 ts2 =>
          cases ts with
          | nil =>
              cases ts2 with
              | nil =>
                  have : t = t2 := hj
                  rw [this]
              | cons u2 us2 =>
                  have hle := congrArg (fun s => s.data.length) hj
                  simp only at hle
                  rw [joinComma_len2 [t] (List.cons_ne_nil t []) (by simpa using hl1),
                    joinComma_len2 (t2 :: u2 :: us2)
                      (List.cons_ne_nil t2 (u2 :: us2)) hl2] at hle
                  simp only [List.length_cons, List.length_nil] at hle
                  omega
          | cons u us =>
              cases ts2 with
              | nil =>
                  have hle := congrArg (fun s => s.data.length) hj
                  simp only at hle
                  rw [joinComma_len2 (t :: u :: us)
                      (List.cons_ne_nil t (u :: us)) hl1,
                    joinComma_len2 [t2] (List.cons_ne_nil t2 [])
                      (by simpa using hl2)] at hle
                  simp only [List.length_cons, List.length_nil] at hle
                  omega
              | cons u2 us2 =>
                  have hd := congrArg String.data hj
                  rw [joinComma_data_cons, joinComma_data_cons] at hd
                  have hlen : t.data.length = t2.data.length := by
                    rw [hl1 t (by simp), hl2 t2 (by simp)]
                  obtain ⟨hts, htl⟩ := List.append_inj hd hlen
                  have ht : t = t2 := string_data_inj hts
                  have htail : (joinComma (u :: us)).data = (joinComma (u2 :: us2)).data := by
                    injection htl
                  have hja : joinComma (u :: us) = joinComma (u2 :: us2) :=
                    string_data_inj htail
                  have hrest := ih (u2 :: us2) (fun x hx => hl1 x (by simp [hx]))
                    (fun x hx => hl2 x (by simp [hx])) hja
                  rw [ht, hrest]

theorem card_digest_lt_card_perm :
    Fintype.card (Fin 64 → Fin 16) < Fintype.card (Equiv.Perm (Fin 59)) := by
  rw [Fintype.card_fun, Fintype.card_perm, Fintype.card_fin, Fintype.card_fin,
    Fintype.card_fin]
  decide

/-- Counterexample for C2: the universal order-sensitivity claim is false for
any fixed-length digest. The 59! orderings of 59 distinct tokens are pairwise
permutations of one another with pairwise distinct canonical strings, yet
there are only 16^64 possible 64-hex-character digests, so two distinct
orderings must share a digest under the same salt. -/
theorem order_sensitivity_not_universal :
    ¬ (∀ (salt : String) (l1 l2 : List String), l1.Perm l2 → l1 ≠ l2 →
        joinComma l1 ≠ joinComma l2 →
        hash_image_sequence (joinComma l1) salt ≠
          hash_image_sequence (joinComma l2) salt) := by
  intro H
  obtain ⟨σ, τ, hne, heq⟩ := Fintype.exists_ne_map_eq_of_card_lt
    (fun σ : Equiv.Perm (Fin 59) =>
      digestCode (hash_image_sequence (joinComma (seqOf σ)) ""))
    card_digest_lt_card_perm
  have hhash : hash_image_sequence (joinComma (seqOf σ)) "" =
      hash_image_sequence (joinComma (seqOf τ)) "" := by
    refine digestCode_inj ?_ ?_ ?_ ?_ heq
    · exact sha256hex_length _
    · exact fun c hc => sha256hex_mem_hex _ hc
    · exact sha256hex_length _
    · exact fun c hc => sha256hex_mem_hex _ hc
  have hlists : seqOf σ ≠ seqOf τ := fun he => hne (seqOf_inj he)
  have hjoins : joinComma (seqOf σ) ≠ joinComma (seqOf τ) :=
    fun he => hlists (joinComma_inj2 _ _ (seqOf_tok_len σ) (seqOf_tok_len τ) he)
  exact H "" (seqOf σ) (seqOf τ) (seqOf_perm σ τ) hlists hjoins hhash

/-- C2 as amended: order sensitivity at the spec's concrete instance — the
reversal of the four distinct tokens `a, b, c, d` hashes differently from the
original under the same salt (and the two sequences are unequal permutations
of each other with distinct canonical strings). -/
theorem order_sensitivity_concrete :
    (["a", "b", "c", "d"] : List String).Perm ["d", "c", "b", "a"] ∧
    (["a", "b", "c", "d"] : List String) ≠ ["d", "c", "b", "a"] ∧
    joinComma ["a", "b", "c", "d"] ≠ joinComma ["d", "c", "b", "a"] ∧
    hash_image_sequence (joinComma ["a", "b", "c", "d"]) "salt" ≠
      hash_image_sequence (joinComma ["d", "c", "b", "a"]) "salt" := by
  refine ⟨by decide, by decide, by decide, by decide⟩
